import Mathlib

/-!
Verification development for the Totsu convex-optimization repository
(`solver_gpu`): a primal-dual interior-point engine (`PrimalDualIPM`) and its
quadratic-program adapter (`QP`, declared in `src/solver_gpu/src/QP.h`).
The repository ships only the adapter's header; the engine and the adapter
method bodies are modelled from the specification, over exact rational
arithmetic, with the linear-algebra substrate (in particular the linear
solve used for the KKT system) kept abstract as a function parameter, as the
specification treats it as an external dependency.  Euclidean-norm
comparisons are carried out on squared norms, which is equivalent whenever
the comparison factor is nonnegative.

Rational arithmetic is expressed through the explicit `mkRat`-based
operations `qadd`, `qsub`, `qmul`, `qdiv`, `qneg`, `qpow`, `qsum`, each
proved equal to the corresponding field operation (`qadd_eq` and
companions); this keeps every definition evaluable by the kernel on
concrete inputs.
-/

/-- Addition on rationals through `mkRat` (equal to `+`, see `qadd_eq`). -/
def qadd (a b : ℚ) : ℚ := mkRat (a.num * b.den + b.num * a.den) (a.den * b.den)

/-- Negation on rationals through `mkRat` (equal to negation). -/
def qneg (a : ℚ) : ℚ := mkRat (-a.num) a.den

/-- Subtraction on rationals through `mkRat`. -/
def qsub (a b : ℚ) : ℚ := qadd a (qneg b)

/-- Multiplication on rationals through `mkRat`. -/
def qmul (a b : ℚ) : ℚ := mkRat (a.num * b.num) (a.den * b.den)

/-- Division on rationals through `Rat.divInt` (total, with division by
zero yielding zero, as for the field division). -/
def qdiv (a b : ℚ) : ℚ := Rat.divInt (a.num * b.den) (a.den * b.num)

/-- Natural powers of a rational. -/
def qpow (a : ℚ) : ℕ → ℚ
  | 0 => 1
  | k + 1 => qmul a (qpow a k)

/-- Sum of a list of rationals. -/
def qsum : List ℚ → ℚ
  | [] => 0
  | a :: l => qadd a (qsum l)

/-- Vectors are lists of rationals; matrices are lists of row vectors. -/
abbrev Vec := List ℚ

abbrev Mat := List (List ℚ)

/-- Dot product (truncating at the shorter argument, as all callers use
equal lengths). -/
def dot (u v : Vec) : ℚ := qsum (List.zipWith (fun a b => qmul a b) u v)

/-- Matrix-vector product, row by row. -/
def matVec (M : Mat) (v : Vec) : Vec := M.map (fun row => dot row v)

/-- Componentwise vector addition. -/
def vadd (u v : Vec) : Vec := List.zipWith (fun a b => qadd a b) u v

/-- Componentwise vector subtraction. -/
def vsub (u v : Vec) : Vec := List.zipWith (fun a b => qsub a b) u v

/-- Scalar multiple of a vector. -/
def smul (c : ℚ) (v : Vec) : Vec := v.map (fun a => qmul c a)

/-- Componentwise negation. -/
def vneg (v : Vec) : Vec := v.map (fun a => qneg a)

/-- Squared Euclidean norm. -/
def sqNorm (v : Vec) : ℚ := qsum (v.map (fun a => qmul a a))

/-- Scalar multiple of a matrix. -/
def smulMat (c : ℚ) (M : Mat) : Mat := M.map (smul c)

/-- Componentwise matrix addition. -/
def matAdd (M N : Mat) : Mat := List.zipWith vadd M N

/-- Transposed matrix-vector product with an explicit output dimension:
component j of the result is the dot product of column j of M with v. -/
def matTVec (n : ℕ) (M : Mat) (v : Vec) : Vec :=
  (List.range n).map (fun j => dot (M.map (fun row => row.getD j 0)) v)

/-- All components strictly positive. -/
def allPos (v : Vec) : Bool := v.all (fun a => decide (0 < a))

/-- All components strictly negative. -/
def allNeg (v : Vec) : Bool := v.all (fun a => decide (a < 0))

/-- Modelled from the spec: the error kinds of the solver (spec section 7);
the implementation file defining `IPM_Error` is absent from the repository
snapshot (only `QP.h` is present). -/
inductive IPM_Error where
  | DimensionError : IPM_Error
  | ComputationError : IPM_Error
  | LinearSolveError : IPM_Error
  | LineSearchError : IPM_Error
deriving DecidableEq, Repr

/-- Modelled from the spec: the abstract Problem Contract (spec section 4.1)
that `PrimalDualIPM` drives; its defining header is absent from the
repository snapshot.  Each evaluation hook may fail (`ComputationError`). -/
structure Problem where
  objective : Vec → Option ℚ
  gradient : Vec → Option Vec
  hessian : Vec → Option Mat
  inequality : Vec → Option Vec
  jacobian : Vec → Option Mat
  hessianRow : Vec → ℕ → Option Mat
  eqA : Mat
  eqB : Vec

/-- Modelled from the spec: the engine configuration (spec section 6);
the engine sources are absent from the repository snapshot.  The
line-search floor loop is modelled by the candidate-count bound `lsFuel`
together with the `minStep` floor. -/
structure Config where
  maxIter : ℕ
  epsFeas : ℚ
  epsGap : ℚ
  mu : ℚ
  beta : ℚ
  shrink : ℚ
  minStep : ℚ
  lsFuel : ℕ
deriving DecidableEq, Repr

/-- The linear-algebra substrate's linear solve, kept abstract (spec
section 2 treats it as an external dependency): given a square system and a
right-hand side it may return a solution vector. -/
abbrev LinSolver := Mat → Vec → Option Vec

/-- An accepted iterate: primal x, inequality dual lambda, equality dual nu. -/
abbrev Iterate := Vec × Vec × Vec

/-- Modelled from the spec: terminal outcomes of the engine loop (spec
section 4.2 step 8 and section 7).  `done` carries the final iterate, the
converged flag, and the trace of accepted iterates; `fail` carries the
fatal error and the trace accumulated before it. -/
inductive Outcome where
  | done : Vec → Vec → Vec → Bool → List Iterate → Outcome
  | fail : IPM_Error → List Iterate → Outcome
deriving DecidableEq, Repr

/-- Trace of accepted iterates of an outcome. -/
def Outcome.trace : Outcome → List Iterate
  | .done _ _ _ _ tr => tr
  | .fail _ tr => tr

/-- Converged flag of an outcome (false on any fatal error). -/
def Outcome.convergedFlag : Outcome → Bool
  | .done _ _ _ c _ => c
  | .fail _ _ => false

/-- Whether an outcome is a soft termination (converged or budget
exhausted), as opposed to a fatal error. -/
def Outcome.isDone : Outcome → Bool
  | .done _ _ _ _ _ => true
  | .fail _ _ => false

/-- Final primal iterate of a soft termination. -/
def Outcome.finalX : Outcome → Option Vec
  | .done x _ _ _ _ => some x
  | .fail _ _ => none

/-- Modelled from the spec: the KKT residual triple (spec section 4.2
step 4): r_dual = grad f0 + Dfi^T lambda + A^T nu, r_cent_i =
-lambda_i f_i - 1/t, r_primal = A x - b.  Fails when a hook fails. -/
def residuals (prob : Problem) (t : ℚ) (x lmd nu : Vec) :
    Option (Vec × Vec × Vec) := do
  let g ← prob.gradient x
  let fi ← prob.inequality x
  let Df ← prob.jacobian x
  let n := x.length
  let rd := vadd (vadd g (matTVec n Df lmd)) (matTVec n prob.eqA nu)
  let rc := List.zipWith (fun l f => qsub (qneg (qmul l f)) (qdiv 1 t)) lmd fi
  let rp := vsub (matVec prob.eqA x) prob.eqB
  pure (rd, rc, rp)

/-- Squared norm of the full residual triple. -/
def resSqNorm (prob : Problem) (t : ℚ) (x lmd nu : Vec) : Option ℚ :=
  (residuals prob t x lmd nu).map
    (fun r => qadd (qadd (sqNorm r.1) (sqNorm r.2.1)) (sqNorm r.2.2))

/-- Modelled from the spec: result of the per-iteration entry checks (spec
section 4.2 steps 1-4 and 8): hook evaluation, the strict-feasibility
precondition, the surrogate gap and barrier scale, the residual triple, and
the convergence test (squared-norm form). -/
inductive StepCheck where
  | err : StepCheck
  | conv : StepCheck
  | go : ℚ → Vec → Vec → Vec → StepCheck
deriving DecidableEq, Repr

def checkPoint (prob : Problem) (cfg : Config) (x lmd nu : Vec) : StepCheck :=
  match prob.objective x, prob.inequality x with
  | some _, some fi =>
    if allNeg fi = true then
      match residuals prob
          (qdiv (qmul cfg.mu ((fi.length : ℚ))) (qneg (dot fi lmd))) x lmd nu with
      | none => .err
      | some (rd, rc, rp) =>
        if sqNorm rp ≤ qmul cfg.epsFeas cfg.epsFeas ∧
            sqNorm rd ≤ qmul cfg.epsFeas cfg.epsFeas ∧
            qneg (dot fi lmd) ≤ cfg.epsGap
        then .conv
        else .go (qdiv (qmul cfg.mu ((fi.length : ℚ))) (qneg (dot fi lmd))) rd rc rp
    else .err
  | _, _ => .err

/-- Modelled from the spec: assembly of the full KKT system matrix (spec
section 4.2 steps 4-5), with the Hessian block H = DDf0 + sum_i lambda_i
DDf_i; blocks [H Dfi^T A^T; -diag(lambda) Dfi -diag(fi) 0; A 0 0]. -/
def kktMatrix (prob : Problem) (x lmd : Vec) : Option Mat := do
  let H0 ← prob.hessian x
  let Df ← prob.jacobian x
  let fi ← prob.inequality x
  let H ← (List.range lmd.length).foldlM
    (fun acc i => do
      let Hi ← prob.hessianRow x i
      pure (matAdd acc (smulMat (lmd.getD i 0) Hi))) H0
  let n := x.length
  let m := lmd.length
  let p := prob.eqA.length
  let DfT := (List.range n).map (fun j => Df.map (fun row => row.getD j 0))
  let AT := (List.range n).map (fun j => prob.eqA.map (fun row => row.getD j 0))
  let top := (List.range n).map
    (fun i => (H.getD i []) ++ (DfT.getD i []) ++ (AT.getD i []))
  let mid := (List.range m).map
    (fun i => smul (qneg (lmd.getD i 0)) (Df.getD i [])
      ++ (List.range m).map (fun j => if i = j then qneg (fi.getD i 0) else 0)
      ++ List.replicate p 0)
  let bot := (List.range p).map
    (fun i => (prob.eqA.getD i []) ++ List.replicate m 0 ++ List.replicate p 0)
  pure (top ++ mid ++ bot)

/-- Modelled from the spec: forming and solving the Newton system (spec
section 4.2 step 5) through the abstract substrate solve; a missing or
ill-shaped solution is a linear-solve failure. -/
def newtonDir (prob : Problem) (ls : LinSolver) (x lmd : Vec)
    (rd rc rp : Vec) : Option (Vec × Vec × Vec) :=
  match kktMatrix prob x lmd with
  | none => none
  | some K =>
    match ls K (vneg (rd ++ rc ++ rp)) with
    | none => none
    | some sol =>
      if sol.length = x.length + lmd.length + prob.eqA.length then
        some (sol.take x.length, (sol.drop x.length).take lmd.length,
          sol.drop (x.length + lmd.length))
      else none

/-- Modelled from the spec: the candidate step scales of the backtracking
line search (spec section 4.2 step 6): powers of the shrink factor starting
at 1, cut off at the minimum-step floor. -/
def alphas (cfg : Config) : List ℚ :=
  ((List.range cfg.lsFuel).map (fun i => qpow cfg.shrink i)).filter
    (fun a => decide (cfg.minStep ≤ a))

/-- Modelled from the spec: acceptance test of one candidate step scale
(spec section 4.2 step 6 with the section 3 invariant): the stepped duals
stay strictly positive, the stepped inequality values stay strictly
negative, and the squared residual norm decreases by the Armijo factor
(1 - beta * alpha) squared. -/
def lsAccept (prob : Problem) (cfg : Config) (t : ℚ) (x lmd nu dx dl dn : Vec)
    (rn0 : ℚ) (a : ℚ) : Bool :=
  allPos (vadd lmd (smul a dl)) &&
    (match prob.inequality (vadd x (smul a dx)) with
     | some f => allNeg f
     | none => false) &&
    (match resSqNorm prob t (vadd x (smul a dx)) (vadd lmd (smul a dl))
        (vadd nu (smul a dn)) with
     | some rn =>
        decide (rn ≤ qmul (qmul (qsub 1 (qmul cfg.beta a))
          (qsub 1 (qmul cfg.beta a))) rn0)
     | none => false)

/-- Modelled from the spec: the backtracking line search (spec section 4.2
step 6): the largest candidate scale passing the acceptance test, together
with the stepped iterate; exhausting the candidates is a line-search
failure. -/
def lineSearch (prob : Problem) (cfg : Config) (t : ℚ) (x lmd nu dx dl dn : Vec)
    (rn0 : ℚ) : Option (ℚ × Vec × Vec × Vec) :=
  match (alphas cfg).find? (fun a => lsAccept prob cfg t x lmd nu dx dl dn rn0 a) with
  | none => none
  | some a => some (a, vadd x (smul a dx), vadd lmd (smul a dl), vadd nu (smul a dn))

/-- Modelled from the spec: the engine iteration loop (spec section 4.2),
with the iteration budget as structural fuel; the trace accumulates every
accepted iterate.  The sources of `PrimalDualIPM` are absent from the
repository snapshot (only the adapter header `QP.h` is present). -/
def iterate (prob : Problem) (ls : LinSolver) (cfg : Config) :
    ℕ → Vec → Vec → Vec → List Iterate → Outcome
  | 0, x, lmd, nu, tr =>
    match checkPoint prob cfg x lmd nu with
    | .err => .fail .ComputationError tr
    | .conv => .done x lmd nu true tr
    | .go _ _ _ _ => .done x lmd nu false tr
  | Nat.succ fuel1, x, lmd, nu, tr =>
    match checkPoint prob cfg x lmd nu with
    | .err => .fail .ComputationError tr
    | .conv => .done x lmd nu true tr
    | .go t rd rc rp =>
      match newtonDir prob ls x lmd rd rc rp with
      | none => .fail .LinearSolveError tr
      | some (dx, dl, dn) =>
        match lineSearch prob cfg t x lmd nu dx dl dn
            (qadd (qadd (sqNorm rd) (sqNorm rc)) (sqNorm rp)) with
        | none => .fail .LineSearchError tr
        | some (_, x1, l1, n1) =>
          iterate prob ls cfg fuel1 x1 l1 n1 (tr ++ [(x1, l1, n1)])

/-- Modelled from the spec: the engine entry point (spec section 4.2):
runs the loop from the given starting iterate with the configured budget. -/
def PrimalDualIPM.solve (prob : Problem) (ls : LinSolver) (cfg : Config)
    (x0 lmd0 nu0 : Vec) : Outcome :=
  iterate prob ls cfg cfg.maxIter x0 lmd0 nu0 []

/-- The feasibility invariant of an accepted iterate: strictly positive
inequality duals and strictly negative inequality values. -/
def FeasIter (prob : Problem) (it : Iterate) : Prop :=
  allPos it.2.1 = true ∧
    ∃ fi, prob.inequality it.1 = some fi ∧ allNeg fi = true

/-- Caller-supplied QP data: the in-out vector x and the coefficient
matrices and vectors of `QP::solve` (declared in `QP.h`). -/
structure QPData where
  x : Vec
  P : Mat
  q : Vec
  r : ℚ
  G : Mat
  h : Vec
  A : Mat
  b : Vec
deriving DecidableEq, Repr

/-- Persistent adapter state: the slack margin `m_slack` and the converged
flag `m_converged` (fields declared in `QP.h`). -/
structure QPState where
  m_slack : ℚ
  m_converged : Bool
deriving DecidableEq, Repr

namespace QP

/-- Modelled from the spec: the dimension consistency check of `QP::solve`
(spec section 6); the body of `QP::solve` is absent from the repository
snapshot.  All coefficient shapes must agree with n = dim x. -/
def dimsOk (d : QPData) : Bool :=
  (d.P.length == d.x.length) &&
    d.P.all (fun row => row.length == d.x.length) &&
    (d.q.length == d.x.length) &&
    d.G.all (fun row => row.length == d.x.length) &&
    (d.h.length == d.G.length) &&
    d.A.all (fun row => row.length == d.x.length) &&
    (d.b.length == d.A.length)

/-- Augmented objective matrix: the slack coordinate does not enter the
objective (the problem statement in `QP.h` and spec section 4.3). -/
def augP (P : Mat) (n : ℕ) : Mat :=
  P.map (fun row => row ++ [0]) ++ [List.replicate n 0 ++ [0]]

/-- Augmented linear objective term. -/
def augq (q : Vec) : Vec := q ++ [0]

/-- Augmented inequality matrix: G x - h - s <= 0 rowwise, i.e. a -1 slack
column (the comment in `QP.h`: G x <= h + s 1). -/
def augG (G : Mat) : Mat := G.map (fun row => row ++ [-1])

/-- Augmented equality matrix: original rows ignore s, plus the added row
s = 0 (the comment in `QP.h`). -/
def augA (A : Mat) (n : ℕ) : Mat :=
  A.map (fun row => row ++ [0]) ++ [List.replicate n 0 ++ [1]]

/-- Augmented equality right-hand side. -/
def augb (b : Vec) : Vec := b ++ [0]

/-- Modelled from the spec: body of `QP::objective` (declared in `QP.h`,
body absent): the quadratic objective value at x. -/
def objective (P : Mat) (q : Vec) (r : ℚ) (x : Vec) : Option ℚ :=
  some (qadd (qadd (qdiv (dot x (matVec P x)) 2) (dot q x)) r)

/-- Modelled from the spec: body of `QP::Dobjective`: gradient P x + q. -/
def Dobjective (P : Mat) (q : Vec) (x : Vec) : Option Vec :=
  some (vadd (matVec P x) q)

/-- Modelled from the spec: body of `QP::DDobjective`: constant Hessian P. -/
def DDobjective (P : Mat) (_x : Vec) : Option Mat := some P

/-- Modelled from the spec: body of `QP::inequality`: the linear value
G x - h. -/
def inequality (G : Mat) (h : Vec) (x : Vec) : Option Vec :=
  some (vsub (matVec G x) h)

/-- Modelled from the spec: body of `QP::Dinequality`: constant Jacobian G. -/
def Dinequality (G : Mat) (_x : Vec) : Option Mat := some G

/-- Modelled from the spec: body of `QP::DDinequality`: the zero matrix for
every inequality row (linear constraints). -/
def DDinequality (n : ℕ) (_x : Vec) (_i : ℕ) : Option Mat :=
  some (List.replicate n (List.replicate n 0))

/-- Modelled from the spec: the Problem Contract instance the adapter hands
to the engine (spec section 4.3), over the slack-augmented coefficients. -/
def problem (n : ℕ) (P : Mat) (q : Vec) (r : ℚ) (G : Mat) (h : Vec)
    (A : Mat) (b : Vec) : Problem where
  objective := QP.objective (augP P n) (augq q) r
  gradient := Dobjective (augP P n) (augq q)
  hessian := DDobjective (augP P n)
  inequality := QP.inequality (augG G) h
  jacobian := Dinequality (augG G)
  hessianRow := DDinequality (n + 1)
  eqA := augA A n
  eqB := augb b

/-- Modelled from the spec: the starting slack value chosen by
`QP::initialPoint` (declared in `QP.h`, body absent): the margin `m_slack`
above the worst inequality violation of the caller's x0, so that
G x0 - h - s 1 < 0 holds componentwise. -/
def initialSlack (slack : ℚ) (G : Mat) (h : Vec) (x0 : Vec) : ℚ :=
  qadd ((vsub (matVec G x0) h).foldl max 0) slack

/-- Modelled from the spec: the augmented starting point of
`QP::initialPoint`: the caller's x0 extended with the initial slack. -/
def initialPoint (slack : ℚ) (G : Mat) (h : Vec) (x0 : Vec) : Vec :=
  x0 ++ [initialSlack slack G h x0]

/-- Modelled from the spec: the engine run performed inside `QP::solve`:
the augmented problem from the caller's coefficients, the augmented
starting point, duals initialized to all ones and all zeros (spec
section 3). -/
def engineOutcome (slack : ℚ) (d : QPData) (ls : LinSolver) (cfg : Config) :
    Outcome :=
  PrimalDualIPM.solve (problem d.x.length d.P d.q d.r d.G d.h d.A d.b) ls cfg
    (initialPoint slack d.G d.h d.x)
    (List.replicate d.G.length 1)
    (List.replicate (d.A.length + 1) 0)

/-- Result of one call to `QP::solve`: the updated adapter state, the
caller's x after the call, the returned error (none on success, including
budget exhaustion), and the trace of accepted iterates. -/
structure QPResult where
  state : QPState
  x : Vec
  err : Option IPM_Error
  trace : List Iterate
deriving DecidableEq, Repr

/-- Modelled from the spec: body of `QP::solve` (declared in `QP.h`, body
absent): dimension check before any iteration, engine run on the augmented
problem, then `finalPoint` delivery: on soft termination the caller's x is
overwritten with the first n coordinates of the final iterate and
`m_converged` records the termination kind; on a fatal error the caller's
x is left unchanged and `m_converged` is false. -/
def solve (st : QPState) (d : QPData) (ls : LinSolver) (cfg : Config) :
    QPResult :=
  if dimsOk d = true then
    match engineOutcome st.m_slack d ls cfg with
    | .done xf _ _ conv tr =>
        ⟨⟨st.m_slack, conv⟩, xf.take d.x.length, none, tr⟩
    | .fail e tr => ⟨⟨st.m_slack, false⟩, d.x, some e, tr⟩
  else ⟨⟨st.m_slack, false⟩, d.x, some .DimensionError, []⟩

/-- Body of `QP::isConverged` (present in `QP.h`): returns `m_converged`. -/
def isConverged (st : QPState) : Bool := st.m_converged

/-- Modelled from the spec: the caller-memory view of one `QP::solve` call
(spec section 3: coefficients are owned by the caller, the adapter holds
non-owning const references): the call returns the caller's buffers, of
which only x is written. -/
def solveMem (st : QPState) (mem : QPData) (ls : LinSolver) (cfg : Config) :
    QPState × QPData × Option IPM_Error :=
  let res := solve st mem ls cfg
  (res.state, { mem with x := res.x }, res.err)

end QP

/-- A concrete linear-algebra substrate instance: select the first row with
a nonzero entry in the given column, returning it and the remaining rows. -/
def pivotRow (col : ℕ) : List (List ℚ) → Option (List ℚ × List (List ℚ))
  | [] => none
  | r :: rs =>
    if r.getD col 0 ≠ 0 then some (r, rs)
    else
      match pivotRow col rs with
      | none => none
      | some (p, rest) => some (p, r :: rest)

/-- Forward elimination on augmented rows: normalize a pivot for each
column in turn and eliminate it from the remaining rows. -/
def gaussFwd : ℕ → ℕ → List (List ℚ) → Option (List (List ℚ))
  | 0, _, _ => some []
  | Nat.succ k, col, rows =>
    match pivotRow col rows with
    | none => none
    | some (p, rest) =>
      let pn := smul (qdiv 1 (p.getD col 0)) p
      let rest1 := rest.map (fun r => vsub r (smul (r.getD col 0) pn))
      match gaussFwd k (col + 1) rest1 with
      | none => none
      | some tail => some (pn :: tail)

/-- Back substitution on the normalized triangular rows produced by
`gaussFwd` (row for column `col` first, rightmost entry the right-hand
side). -/
def backSub : ℕ → List (List ℚ) → Vec
  | _, [] => []
  | col, r :: rs =>
    let xs := backSub (col + 1) rs
    let rhs := r.getD (r.length - 1) 0
    let coeffs := (r.drop (col + 1)).take (r.length - 1 - (col + 1))
    (qsub rhs (dot coeffs xs)) :: xs

/-- A concrete substrate linear solve by Gaussian elimination, used to
instantiate the abstract `LinSolver` parameter on concrete runs. -/
def gaussSolve : LinSolver := fun M v =>
  (gaussFwd M.length 0 (List.zipWith (fun r c => r ++ [c]) M v)).map (backSub 0)

/-- A concrete one-dimensional problem instance used on concrete runs:
minimize x^2 subject to 1 - x <= 0. -/
def wProb : Problem where
  objective := fun x => some (qmul (x.getD 0 0) (x.getD 0 0))
  gradient := fun x => some [qmul 2 (x.getD 0 0)]
  hessian := fun _ => some [[2]]
  inequality := fun x => some [qsub 1 (x.getD 0 0)]
  jacobian := fun _ => some [[-1]]
  hessianRow := fun _ _ => some [[0]]
  eqA := []
  eqB := []

/-- A concrete engine configuration used on concrete runs. -/
def wCfg : Config :=
  { maxIter := 1, epsFeas := mkRat 1 100, epsGap := mkRat 1 100, mu := 10,
    beta := mkRat 1 10, shrink := mkRat 1 2, minStep := mkRat 1 100, lsFuel := 8 }

/-- Concrete QP data used on concrete runs: minimize x^2 subject to
x >= 1 (the concrete scenario of spec section 8). -/
def wD : QPData := { x := [3], P := [[2]], q := [0], r := 0,
                     G := [[-1]], h := [-1], A := [], b := [] }

/-- A loose-tolerance configuration under which the concrete QP run
converges. -/
def wCfgLoose : Config :=
  { maxIter := 5, epsFeas := 10, epsGap := 10, mu := 10,
    beta := mkRat 1 10, shrink := mkRat 1 2, minStep := mkRat 1 100, lsFuel := 8 }

/-- A zero-budget configuration under which the concrete QP run exhausts
its iteration budget. -/
def wCfgZero : Config :=
  { maxIter := 0, epsFeas := mkRat 1 100, epsGap := mkRat 1 100, mu := 10,
    beta := mkRat 1 10, shrink := mkRat 1 2, minStep := mkRat 1 100, lsFuel := 8 }

/-- Concrete QP data with mismatched dimensions (G has two columns while
x is one-dimensional). -/
def wDBad : QPData := { x := [3], P := [[2]], q := [0], r := 0,
                        G := [[-1, 4]], h := [-1], A := [], b := [] }

lemma qadd_eq (a b : ℚ) : qadd a b = a + b := by
  have ha : ((a.den : ℚ)) ≠ 0 := Nat.cast_ne_zero.mpr a.den_nz
  have hb : ((b.den : ℚ)) ≠ 0 := Nat.cast_ne_zero.mpr b.den_nz
  rw [qadd, Rat.mkRat_eq_div]
  push_cast
  conv_rhs => rw [← Rat.num_div_den a, ← Rat.num_div_den b, div_add_div _ _ ha hb]
  ring_nf

lemma qneg_eq (a : ℚ) : qneg a = -a := by
  rw [qneg, Rat.mkRat_eq_div]
  push_cast
  rw [neg_div, Rat.num_div_den]

lemma qmul_eq (a b : ℚ) : qmul a b = a * b := by
  rw [qmul, Rat.mkRat_eq_div]
  push_cast
  conv_rhs => rw [← Rat.num_div_den a, ← Rat.num_div_den b]
  rw [div_mul_div_comm]

lemma qsub_eq (a b : ℚ) : qsub a b = a - b := by
  rw [qsub, qadd_eq, qneg_eq, sub_eq_add_neg]

lemma qdiv_eq (a b : ℚ) : qdiv a b = a / b := by
  rcases eq_or_ne b 0 with rfl | hb0
  · simp [qdiv]
  · have ha : ((a.den : ℚ)) ≠ 0 := Nat.cast_ne_zero.mpr a.den_nz
    have hbd : ((b.den : ℚ)) ≠ 0 := Nat.cast_ne_zero.mpr b.den_nz
    have hbn : ((b.num : ℚ)) ≠ 0 :=
      Int.cast_ne_zero.mpr (Rat.num_ne_zero.mpr hb0)
    rw [qdiv, Rat.divInt_eq_div]
    push_cast
    conv_rhs => rw [← Rat.num_div_den a, ← Rat.num_div_den b]
    field_simp

lemma qpow_eq (a : ℚ) (n : ℕ) : qpow a n = a ^ n := by
  induction n with
  | zero => simp [qpow]
  | succ k ih => rw [qpow, qmul_eq, ih, pow_succ]; ring

lemma qsum_eq (l : List ℚ) : qsum l = l.sum := by
  induction l with
  | nil => simp [qsum]
  | cons a l ih => rw [qsum, qadd_eq, ih, List.sum_cons]

lemma dot_def (u v : Vec) :
    dot u v = (List.zipWith (fun a b => a * b) u v).sum := by
  rw [dot, qsum_eq]
  simp only [qmul_eq]

lemma vadd_def (u v : Vec) :
    vadd u v = List.zipWith (fun a b => a + b) u v := by
  rw [vadd]
  simp only [qadd_eq]

lemma vsub_def (u v : Vec) :
    vsub u v = List.zipWith (fun a b => a - b) u v := by
  rw [vsub]
  simp only [qsub_eq]

lemma smul_def (c : ℚ) (v : Vec) : smul c v = v.map (fun a => c * a) := by
  rw [smul]
  simp only [qmul_eq]

lemma sqNorm_def (v : Vec) : sqNorm v = (v.map (fun a => a * a)).sum := by
  rw [sqNorm, qsum_eq]
  simp only [qmul_eq]

lemma allPos_iff (v : Vec) : allPos v = true ↔ ∀ a ∈ v, 0 < a := by
  simp [allPos]

lemma allNeg_iff (v : Vec) : allNeg v = true ↔ ∀ a ∈ v, a < 0 := by
  simp [allNeg]

lemma sqNorm_nonneg (v : Vec) : 0 ≤ sqNorm v := by
  rw [sqNorm_def]
  refine List.sum_nonneg ?_
  intro a ha
  rcases List.mem_map.mp ha with ⟨b, _, rfl⟩
  exact mul_self_nonneg b

lemma length_vadd (u v : Vec) : (vadd u v).length = min u.length v.length := by
  simp [vadd]

lemma length_smul (c : ℚ) (v : Vec) : (smul c v).length = v.length := by
  simp [smul]

lemma length_vsub (u v : Vec) : (vsub u v).length = min u.length v.length := by
  simp [vsub]

lemma length_matVec (M : Mat) (v : Vec) : (matVec M v).length = M.length := by
  simp [matVec]

/-- Splitting a dot product at an appended tail (equal-length heads). -/
lemma dot_append (a b u v : Vec) (h : a.length = u.length) :
    dot (a ++ b) (u ++ v) = dot a u + dot b v := by
  induction a generalizing u with
  | nil =>
      have : u = [] := List.length_eq_zero.mp h.symm
      simp [this, dot_def]
  | cons x xs ih =>
      cases u with
      | nil => simp at h
      | cons y ys =>
          have hlen : xs.length = ys.length := by simpa using h
          simp only [List.cons_append, dot_def, List.zipWith_cons_cons,
            List.sum_cons]
          have := ih ys hlen
          simp only [dot_def] at this
          rw [this]
          ring

lemma dot_nil_left (v : Vec) : dot [] v = 0 := by simp [dot_def]

lemma dot_replicate_zero (n : ℕ) (v : Vec) : dot (List.replicate n 0) v = 0 := by
  induction n generalizing v with
  | zero => simp [dot_def]
  | succ k ih =>
      cases v with
      | nil => simp [dot_def]
      | cons y ys =>
          simp only [List.replicate_succ, dot_def, List.zipWith_cons_cons,
            List.sum_cons]
          have := ih ys
          simp only [dot_def] at this
          rw [this]
          ring

lemma dot_single (c y : ℚ) (ys : Vec) : dot [c] (y :: ys) = c * y := by
  simp [dot_def]

/-- Dot product against a one-hot row extracts one coordinate. -/
lemma dot_onehot (n : ℕ) (c : ℚ) (u : Vec) (s : ℚ) (h : u.length = n) :
    dot (List.replicate n 0 ++ [c]) (u ++ [s]) = c * s := by
  rw [dot_append _ _ _ _ (by simp [h]), dot_replicate_zero, dot_single]
  ring

lemma getD_map_lt {α β : Type} (f : α → β) (l : List α) (i : ℕ) (d : α)
    (hi : i < l.length) : (l.map f).getD i (f d) = f (l.getD i d) := by
  induction l generalizing i with
  | nil => simp at hi
  | cons x xs ih =>
      cases i with
      | zero => simp
      | succ j =>
          simp only [List.map_cons, List.getD_cons_succ]
          exact ih j (by simpa using hi)

lemma getD_zipWith_lt {α β γ : Type} (f : α → β → γ) (u : List α) (v : List β)
    (i : ℕ) (da : α) (db : β)
    (hu : i < u.length) (hv : i < v.length) :
    (List.zipWith f u v).getD i (f da db) = f (u.getD i da) (v.getD i db) := by
  induction u generalizing v i with
  | nil => simp at hu
  | cons x xs ih =>
      cases v with
      | nil => simp at hv
      | cons y ys =>
          cases i with
          | zero => simp
          | succ j =>
              simp only [List.zipWith_cons_cons, List.getD_cons_succ]
              exact ih ys j (by simpa using hu) (by simpa using hv)

lemma getD_append_length {α : Type} (u v : List α) (d : α) :
    (u ++ v).getD u.length d = v.getD 0 d := by
  induction u with
  | nil => simp
  | cons x xs ih => simpa using ih

/-- Every coordinate's square is bounded by the squared norm. -/
lemma sq_getD_le_sqNorm (v : Vec) (i : ℕ) :
    v.getD i 0 * v.getD i 0 ≤ sqNorm v := by
  induction v generalizing i with
  | nil => simp [sqNorm_def]
  | cons a t ih =>
      cases i with
      | zero =>
          simp only [List.getD_cons_zero, sqNorm_def, List.map_cons,
            List.sum_cons]
          have h0 := sqNorm_nonneg t
          rw [sqNorm_def] at h0
          nlinarith
      | succ j =>
          simp only [List.getD_cons_succ, sqNorm_def, List.map_cons,
            List.sum_cons]
          have := ih j
          rw [sqNorm_def] at this
          nlinarith [mul_self_nonneg a]

lemma d_le_foldl_max (l : List ℚ) (d : ℚ) : d ≤ l.foldl max d := by
  induction l generalizing d with
  | nil => simp
  | cons x xs ih => exact le_trans (le_max_left d x) (ih (max d x))

/-- Members of a list are bounded by a left fold of max. -/
lemma le_foldl_max (l : List ℚ) (d : ℚ) : ∀ c ∈ l, c ≤ l.foldl max d := by
  induction l generalizing d with
  | nil => intro c hc; simp at hc
  | cons x xs ih =>
      intro c hc
      rcases List.mem_cons.mp hc with rfl | hmem
      · exact le_trans (le_max_right d c) (d_le_foldl_max xs (max d c))
      · exact ih (max d x) c hmem

lemma residuals_rp {prob : Problem} {t : ℚ} {x lmd nu rd rc rp : Vec}
    (h : residuals prob t x lmd nu = some (rd, rc, rp)) :
    rp = vsub (matVec prob.eqA x) prob.eqB := by
  rcases hg : prob.gradient x with _ | g <;>
    rcases hi : prob.inequality x with _ | fi <;>
    rcases hj : prob.jacobian x with _ | Df <;>
    simp [residuals, hg, hi, hj] at h
  exact h.2.2.symm

lemma lsAccept_spec {prob : Problem} {cfg : Config} {t : ℚ}
    {x lmd nu dx dl dn : Vec} {rn0 a : ℚ}
    (h : lsAccept prob cfg t x lmd nu dx dl dn rn0 a = true) :
    allPos (vadd lmd (smul a dl)) = true ∧
      (∃ f, prob.inequality (vadd x (smul a dx)) = some f ∧ allNeg f = true) ∧
      (∃ rn, resSqNorm prob t (vadd x (smul a dx)) (vadd lmd (smul a dl))
          (vadd nu (smul a dn)) = some rn ∧
        rn ≤ (1 - cfg.beta * a) ^ 2 * rn0) := by
  unfold lsAccept at h
  simp only [Bool.and_eq_true] at h
  obtain ⟨⟨h1, h2⟩, h3⟩ := h
  refine ⟨h1, ?_, ?_⟩
  · rcases hi : prob.inequality (vadd x (smul a dx)) with _ | f <;> rw [hi] at h2
    · exact absurd h2 (by simp)
    · exact ⟨f, rfl, h2⟩
  · rcases hr : resSqNorm prob t (vadd x (smul a dx)) (vadd lmd (smul a dl))
        (vadd nu (smul a dn)) with _ | rn <;> rw [hr] at h3
    · exact absurd h3 (by simp)
    · refine ⟨rn, rfl, ?_⟩
      have := of_decide_eq_true h3
      rw [qmul_eq, qmul_eq, qsub_eq, qmul_eq] at this
      calc rn ≤ (1 - cfg.beta * a) * (1 - cfg.beta * a) * rn0 := this
        _ = (1 - cfg.beta * a) ^ 2 * rn0 := by ring

lemma lineSearch_spec {prob : Problem} {cfg : Config} {t : ℚ}
    {x lmd nu dx dl dn : Vec} {rn0 a : ℚ} {x1 l1 n1 : Vec}
    (h : lineSearch prob cfg t x lmd nu dx dl dn rn0 = some (a, x1, l1, n1)) :
    x1 = vadd x (smul a dx) ∧ l1 = vadd lmd (smul a dl) ∧
      n1 = vadd nu (smul a dn) ∧ a ∈ alphas cfg ∧
      lsAccept prob cfg t x lmd nu dx dl dn rn0 a = true := by
  unfold lineSearch at h
  rcases hf : (alphas cfg).find?
      (fun a => lsAccept prob cfg t x lmd nu dx dl dn rn0 a) with _ | a0 <;>
    rw [hf] at h
  · simp at h
  · simp only [Option.some.injEq, Prod.mk.injEq] at h
    obtain ⟨rfl, rfl, rfl, rfl⟩ := h
    exact ⟨rfl, rfl, rfl, List.mem_of_find?_eq_some hf, List.find?_some hf⟩

lemma newtonDir_lengths {prob : Problem} {ls : LinSolver} {x lmd rd rc rp : Vec}
    {dx dl dn : Vec}
    (h : newtonDir prob ls x lmd rd rc rp = some (dx, dl, dn)) :
    dx.length = x.length := by
  unfold newtonDir at h
  split at h
  · simp at h
  split at h
  · simp at h
  split at h
  · rename_i hlen
    simp only [Option.some.injEq, Prod.mk.injEq] at h
    obtain ⟨rfl, -, -⟩ := h
    simp only [List.length_take, hlen]
    omega
  · simp at h

lemma checkPoint_conv {prob : Problem} {cfg : Config} {x lmd nu : Vec}
    (h : checkPoint prob cfg x lmd nu = .conv) :
    sqNorm (vsub (matVec prob.eqA x) prob.eqB) ≤ cfg.epsFeas ^ 2 := by
  unfold checkPoint at h
  split at h
  · rename_i fo fi ho hi
    split at h
    · split at h
      · simp at h
      · rename_i rtrip hres
        split at h
        · rename_i hcond
          rw [residuals_rp hres] at hcond
          have := hcond.1
          rw [qmul_eq] at this
          rw [pow_two]
          exact this
        · simp at h
    · simp at h
  · simp at h

/-- Every iterate appended to the trace by the engine loop satisfies the
feasibility invariant; pre-existing trace entries are carried along. -/
lemma iterate_trace_inv (prob : Problem) (ls : LinSolver) (cfg : Config) :
    ∀ (fuel : ℕ) (x lmd nu : Vec) (tr : List Iterate),
      (∀ it ∈ tr, FeasIter prob it) →
      ∀ it ∈ (iterate prob ls cfg fuel x lmd nu tr).trace, FeasIter prob it := by
  intro fuel
  induction fuel with
  | zero =>
      intro x lmd nu tr htr it hit
      rcases hcp : checkPoint prob cfg x lmd nu with _ | _ | ⟨t, rd, rc, rp⟩ <;>
        simp only [iterate, hcp, Outcome.trace] at hit <;> exact htr it hit
  | succ f ih =>
      intro x lmd nu tr htr it hit
      rcases hcp : checkPoint prob cfg x lmd nu with _ | _ | ⟨t, rd, rc, rp⟩ <;>
        simp only [iterate, hcp, Outcome.trace] at hit
      · exact htr it hit
      · exact htr it hit
      · rcases hnd : newtonDir prob ls x lmd rd rc rp with _ | ⟨dx, dl, dn⟩ <;>
          simp only [hnd, Outcome.trace] at hit
        · exact htr it hit
        · rcases hls : lineSearch prob cfg t x lmd nu dx dl dn
              (qadd (qadd (sqNorm rd) (sqNorm rc)) (sqNorm rp)) with
            _ | ⟨a, x1, l1, n1⟩ <;>
            simp only [hls, Outcome.trace] at hit
          · exact htr it hit
          · obtain ⟨hx1, hl1, hn1, -, hacc⟩ := lineSearch_spec hls
            obtain ⟨hpos, ⟨fi, hfi, hneg⟩, -⟩ := lsAccept_spec hacc
            refine ih x1 l1 n1 (tr ++ [(x1, l1, n1)]) ?_ it hit
            intro it2 hit2
            rcases List.mem_append.mp hit2 with hold | hnew
            · exact htr it2 hold
            · have heq2 : it2 = (x1, l1, n1) := by simpa using hnew
              subst heq2
              exact ⟨by rw [hl1]; exact hpos,
                fi, by rw [hx1]; exact hfi, hneg⟩

/-- The engine loop preserves the primal dimension: a soft termination's
final x has the length of the starting x. -/
lemma iterate_done_length (prob : Problem) (ls : LinSolver) (cfg : Config) :
    ∀ (fuel : ℕ) (x lmd nu : Vec) (tr : List Iterate)
      (xf lf nf : Vec) (c : Bool) (trf : List Iterate),
      iterate prob ls cfg fuel x lmd nu tr = .done xf lf nf c trf →
      xf.length = x.length := by
  intro fuel
  induction fuel with
  | zero =>
      intro x lmd nu tr xf lf nf c trf h
      rcases hcp : checkPoint prob cfg x lmd nu with _ | _ | ⟨t, rd, rc, rp⟩ <;>
        simp only [iterate, hcp] at h
      · cases h
      · obtain ⟨rfl, -⟩ := Outcome.done.inj h
        rfl
      · obtain ⟨rfl, -⟩ := Outcome.done.inj h
        rfl
  | succ f ih =>
      intro x lmd nu tr xf lf nf c trf h
      rcases hcp : checkPoint prob cfg x lmd nu with _ | _ | ⟨t, rd, rc, rp⟩ <;>
        simp only [iterate, hcp] at h
      · cases h
      · obtain ⟨rfl, -⟩ := Outcome.done.inj h
        rfl
      · rcases hnd : newtonDir prob ls x lmd rd rc rp with _ | ⟨dx, dl, dn⟩ <;>
          simp only [hnd] at h
        · cases h
        · rcases hls : lineSearch prob cfg t x lmd nu dx dl dn
              (qadd (qadd (sqNorm rd) (sqNorm rc)) (sqNorm rp)) with
            _ | ⟨a, x1, l1, n1⟩ <;>
            simp only [hls] at h
          · cases h
          · obtain ⟨hx1, -, -, -, -⟩ := lineSearch_spec hls
            have h1 := ih x1 l1 n1 (tr ++ [(x1, l1, n1)]) xf lf nf c trf h
            have hdx : dx.length = x.length := newtonDir_lengths hnd
            rw [h1, hx1, length_vadd, length_smul, hdx, min_self]

/-- A soft termination with the converged flag set can only arise from the
convergence test passing at the final iterate; in particular the squared
primal residual at the final x is within the squared feasibility
tolerance. -/
lemma iterate_done_true (prob : Problem) (ls : LinSolver) (cfg : Config) :
    ∀ (fuel : ℕ) (x lmd nu : Vec) (tr : List Iterate)
      (xf lf nf : Vec) (trf : List Iterate),
      iterate prob ls cfg fuel x lmd nu tr = .done xf lf nf true trf →
      sqNorm (vsub (matVec prob.eqA xf) prob.eqB) ≤ cfg.epsFeas ^ 2 := by
  intro fuel
  induction fuel with
  | zero =>
      intro x lmd nu tr xf lf nf trf h
      rcases hcp : checkPoint prob cfg x lmd nu with _ | _ | ⟨t, rd, rc, rp⟩ <;>
        simp only [iterate, hcp] at h
      · cases h
      · obtain ⟨rfl, -⟩ := Outcome.done.inj h
        exact checkPoint_conv hcp
      · obtain ⟨-, -, -, hc, -⟩ := Outcome.done.inj h
        cases hc
  | succ f ih =>
      intro x lmd nu tr xf lf nf trf h
      rcases hcp : checkPoint prob cfg x lmd nu with _ | _ | ⟨t, rd, rc, rp⟩ <;>
        simp only [iterate, hcp] at h
      · cases h
      · obtain ⟨rfl, -⟩ := Outcome.done.inj h
        exact checkPoint_conv hcp
      · rcases hnd : newtonDir prob ls x lmd rd rc rp with _ | ⟨dx, dl, dn⟩ <;>
          simp only [hnd] at h
        · cases h
        · rcases hls : lineSearch prob cfg t x lmd nu dx dl dn
              (qadd (qadd (sqNorm rd) (sqNorm rc)) (sqNorm rp)) with
            _ | ⟨a, x1, l1, n1⟩ <;>
            simp only [hls] at h
          · cases h
          · exact ih x1 l1 n1 (tr ++ [(x1, l1, n1)]) xf lf nf trf h

lemma resSqNorm_nonneg {prob : Problem} {t : ℚ} {x lmd nu : Vec} {rn : ℚ}
    (h : resSqNorm prob t x lmd nu = some rn) : 0 ≤ rn := by
  rcases hres : residuals prob t x lmd nu with _ | ⟨rd, rc, rp⟩ <;>
    rw [resSqNorm, hres] at h
  · simp at h
  · simp only [Option.map_some'] at h
    obtain rfl : qadd (qadd (sqNorm rd) (sqNorm rc)) (sqNorm rp) = rn :=
      Option.some.inj h
    rw [qadd_eq, qadd_eq]
    have h1 := sqNorm_nonneg rd
    have h2 := sqNorm_nonneg rc
    have h3 := sqNorm_nonneg rp
    linarith

lemma mem_alphas_bounds {cfg : Config} {a : ℚ}
    (hs0 : 0 < cfg.shrink) (hs1 : cfg.shrink ≤ 1) (ha : a ∈ alphas cfg) :
    0 < a ∧ a ≤ 1 := by
  have ha2 := List.mem_of_mem_filter ha
  rcases List.mem_map.mp ha2 with ⟨i, -, rfl⟩
  rw [qpow_eq]
  constructor
  · exact pow_pos hs0 i
  · exact pow_le_one₀ (le_of_lt hs0) hs1

/-- C1: for every run of the interior-point engine's solve, every accepted
iterate on the trace has a strictly positive inequality dual vector and
strictly negative inequality constraint values; no accepted step violates
this. -/
theorem C1_feasibility_invariant (prob : Problem) (ls : LinSolver)
    (cfg : Config) (x0 lmd0 nu0 : Vec) (it : Iterate)
    (hit : it ∈ (PrimalDualIPM.solve prob ls cfg x0 lmd0 nu0).trace) :
    allPos it.2.1 = true ∧
      ∃ fi, prob.inequality it.1 = some fi ∧ allNeg fi = true :=
  iterate_trace_inv prob ls cfg cfg.maxIter x0 lmd0 nu0 []
    (by intro it2 h2; simp at h2) it hit

theorem C1_feasibility_invariant_witness :
    (([mkRat 91 50], [mkRat 57 50], ([] : Vec)) : Iterate) ∈
      (PrimalDualIPM.solve wProb gaussSolve wCfg [3] [1] []).trace ∧
    (allPos ([mkRat 57 50] : Vec) = true ∧
      ∃ fi, wProb.inequality [mkRat 91 50] = some fi ∧ allNeg fi = true) :=
  ⟨by decide, C1_feasibility_invariant wProb gaussSolve wCfg [3] [1] []
    ([mkRat 91 50], [mkRat 57 50], []) (by decide)⟩

/-- C2: whenever the backtracking line search accepts a step with scale a,
the Euclidean norm of the residual triple at the accepted iterate is at most
(1 - beta a) times the norm at the pre-step iterate, for any well-formed
backtracking constant beta in (0, 1/2) and shrink factor in (0, 1]. -/
theorem C2_residual_decrease (prob : Problem) (cfg : Config) (t : ℚ)
    (x lmd nu dx dl dn : Vec) (rn0 a : ℚ) (x1 l1 n1 : Vec)
    (hb0 : 0 < cfg.beta) (hb1 : cfg.beta < 1/2)
    (hs0 : 0 < cfg.shrink) (hs1 : cfg.shrink ≤ 1)
    (hrn0 : resSqNorm prob t x lmd nu = some rn0)
    (hls : lineSearch prob cfg t x lmd nu dx dl dn rn0 = some (a, x1, l1, n1)) :
    ∃ rn1, resSqNorm prob t x1 l1 n1 = some rn1 ∧
      Real.sqrt ((rn1 : ℚ) : ℝ) ≤
        (1 - ((cfg.beta : ℚ) : ℝ) * ((a : ℚ) : ℝ)) * Real.sqrt ((rn0 : ℚ) : ℝ) := by
  obtain ⟨hx1, hl1, hn1, hmem, hacc⟩ := lineSearch_spec hls
  obtain ⟨-, -, rn1, hrn1, hdec⟩ := lsAccept_spec hacc
  obtain ⟨ha0, ha1⟩ := mem_alphas_bounds hs0 hs1 hmem
  subst hx1 hl1 hn1
  refine ⟨rn1, hrn1, ?_⟩
  have hfac : (0 : ℚ) < 1 - cfg.beta * a := by nlinarith
  have hfacR : (0 : ℝ) ≤ ((1 - cfg.beta * a : ℚ) : ℝ) := by
    exact_mod_cast le_of_lt hfac
  have key : ((rn1 : ℚ) : ℝ) ≤ ((1 - cfg.beta * a : ℚ) : ℝ) ^ 2 * ((rn0 : ℚ) : ℝ) := by
    exact_mod_cast hdec
  have h1 := Real.sqrt_le_sqrt key
  rw [Real.sqrt_mul (sq_nonneg _), Real.sqrt_sq hfacR] at h1
  have hcast : ((1 - cfg.beta * a : ℚ) : ℝ) =
      1 - ((cfg.beta : ℚ) : ℝ) * ((a : ℚ) : ℝ) := by push_cast; ring
  rw [hcast] at h1
  exact h1

theorem C2_residual_decrease_witness :
    ∃ rn1, resSqNorm wProb 5 [mkRat 91 50] [mkRat 57 50] [] = some rn1 ∧
      Real.sqrt ((rn1 : ℚ) : ℝ) ≤
        (1 - ((wCfg.beta : ℚ) : ℝ) * ((mkRat 1 2 : ℚ) : ℝ)) *
          Real.sqrt ((mkRat 706 25 : ℚ) : ℝ) :=
  C2_residual_decrease wProb wCfg 5 [3] [1] [] [mkRat (-59) 25] [mkRat 7 25] []
    (mkRat 706 25) (mkRat 1 2) [mkRat 91 50] [mkRat 57 50] []
    (by decide) (by norm_num [wCfg, Rat.mkRat_eq_div]) (by decide) (by decide)
    (by decide) (by decide)

/-- Rows of the slack-augmented inequality system are strictly negative at
the augmented point whenever the slack exceeds every unaugmented row value
by a positive margin. -/
lemma slack_rows_neg (x0 : Vec) (s0 B slack : ℚ) (hpos : 0 < slack)
    (hs0 : B + slack ≤ s0) :
    ∀ (G : Mat) (h : Vec), (∀ g ∈ G, g.length = x0.length) →
      (∀ c ∈ vsub (matVec G x0) h, c ≤ B) →
      allNeg (vsub (matVec (G.map (fun row => row ++ [-1])) (x0 ++ [s0])) h)
        = true := by
  intro G
  induction G with
  | nil => intro h _ _; simp [matVec, vsub, allNeg]
  | cons g G ih =>
      intro h hrow hbound
      cases h with
      | nil => simp [matVec, vsub, allNeg]
      | cons h0 hs =>
          have hgl : g.length = x0.length := hrow g (by simp)
          have hhead : dot (g ++ [-1]) (x0 ++ [s0]) - h0 < 0 := by
            rw [dot_append g [-1] x0 [s0] hgl, dot_single]
            have hc : dot g x0 - h0 ≤ B := by
              refine hbound _ ?_
              simp only [matVec, List.map_cons, vsub_def,
                List.zipWith_cons_cons]
              exact List.mem_cons_self _ _
            nlinarith
          simp only [List.map_cons, matVec, vsub_def, List.zipWith_cons_cons,
            allNeg, List.all_cons, Bool.and_eq_true, decide_eq_true_eq]
          constructor
          · exact hhead
          · have htail := ih hs (fun g2 hg2 => hrow g2 (by simp [hg2]))
              (fun c hc => hbound c (by
                simp only [matVec, List.map_cons, vsub_def,
                  List.zipWith_cons_cons]
                exact List.mem_cons_of_mem _ (by
                  simpa [matVec, vsub_def] using hc)))
            simpa [allNeg, matVec, vsub_def] using htail

/-- C3: for every caller-supplied starting vector x0, including one that
violates G x0 <= h, the slack coordinate chosen by the QP adapter's
initialPoint from the positive margin m_slack makes the augmented starting
point strictly feasible: G x0 - h - s 1 < 0 componentwise, i.e. the
adapter's inequality hook is strictly negative there. -/
theorem C3_initial_point_strict_feasibility (slack : ℚ) (G : Mat) (h : Vec)
    (x0 : Vec) (P : Mat) (q : Vec) (r : ℚ) (A : Mat) (b : Vec)
    (hpos : 0 < slack) (hrow : ∀ g ∈ G, g.length = x0.length) :
    ∃ v, (QP.problem x0.length P q r G h A b).inequality
        (QP.initialPoint slack G h x0) = some v ∧ allNeg v = true := by
  refine ⟨vsub (matVec (QP.augG G) (QP.initialPoint slack G h x0)) h, rfl, ?_⟩
  have hB : ((vsub (matVec G x0) h).foldl max 0) + slack ≤
      QP.initialSlack slack G h x0 := by
    rw [QP.initialSlack, qadd_eq]
  exact slack_rows_neg x0 (QP.initialSlack slack G h x0)
    ((vsub (matVec G x0) h).foldl max 0) slack hpos hB G h hrow
    (le_foldl_max _ _)

theorem C3_initial_point_strict_feasibility_witness :
    ∃ v, (QP.problem 1 [[0]] [0] 0 [[1]] [0] [] []).inequality
        (QP.initialPoint 1 [[1]] [0] [5]) = some v ∧ allNeg v = true :=
  C3_initial_point_strict_feasibility 1 [[1]] [0] [5] [[0]] [0] 0 [] []
    (by decide) (by decide)

lemma getD_indep {α : Type} (l : List α) (i : ℕ) (d1 d2 : α)
    (hi : i < l.length) : l.getD i d1 = l.getD i d2 := by
  induction l generalizing i with
  | nil => simp at hi
  | cons x xs ih =>
      cases i with
      | zero => simp
      | succ j => simpa using ih j (by simpa using hi)

lemma getD_matVec (M : Mat) (v : Vec) (i : ℕ) (hi : i < M.length) :
    (matVec M v).getD i 0 = dot (M.getD i []) v := by
  rw [matVec]
  have := getD_map_lt (fun row => dot row v) M i [] hi
  simpa [dot_nil_left] using this

lemma dot_onehot_getD (n : ℕ) (c : ℚ) (v : Vec) (hv : v.length = n + 1) :
    dot (List.replicate n 0 ++ [c]) v = c * v.getD n 0 := by
  induction n generalizing v with
  | zero =>
      cases v with
      | nil => simp at hv
      | cons a t =>
          have ht : t = [] := by
            have : t.length = 0 := by simpa using hv
            exact List.length_eq_zero.mp this
          subst ht
          simp [dot_def]
  | succ k ih =>
      cases v with
      | nil => simp at hv
      | cons a t =>
          have ht : t.length = k + 1 := by simpa using hv
          simp only [List.replicate_succ, List.cons_append, dot_def,
            List.zipWith_cons_cons, List.sum_cons, List.getD_cons_succ]
          have := ih t ht
          simp only [dot_def] at this
          rw [this]
          ring

lemma dimsOk_spec {d : QPData} (h : QP.dimsOk d = true) :
    d.P.length = d.x.length ∧ (∀ row ∈ d.P, row.length = d.x.length) ∧
    d.q.length = d.x.length ∧ (∀ row ∈ d.G, row.length = d.x.length) ∧
    d.h.length = d.G.length ∧ (∀ row ∈ d.A, row.length = d.x.length) ∧
    d.b.length = d.A.length := by
  unfold QP.dimsOk at h
  simp only [Bool.and_eq_true, List.all_eq_true, beq_iff_eq] at h
  obtain ⟨⟨⟨⟨⟨⟨h1, h2⟩, h3⟩, h4⟩, h5⟩, h6⟩, h7⟩ := h
  exact ⟨h1, h2, h3, h4, h5, h6, h7⟩

/-- C4: whenever a QP solve terminates converged, the slack coordinate of
the final augmented iterate (coordinate n, with n the caller's dimension)
is zero within the feasibility tolerance. -/
theorem C4_slack_vanishing (slack : ℚ) (d : QPData) (ls : LinSolver)
    (cfg : Config) (xf : Vec)
    (heps : 0 ≤ cfg.epsFeas)
    (hdims : QP.dimsOk d = true)
    (hconv : (QP.engineOutcome slack d ls cfg).convergedFlag = true)
    (hfx : (QP.engineOutcome slack d ls cfg).finalX = some xf) :
    |xf.getD d.x.length 0| ≤ cfg.epsFeas := by
  obtain ⟨-, -, -, -, -, -, hb⟩ := dimsOk_spec hdims
  rcases hout : QP.engineOutcome slack d ls cfg with xf2 | e
  case fail =>
      rw [hout] at hconv
      simp [Outcome.convergedFlag] at hconv
  case done lf nf c tr =>
      rw [hout] at hconv hfx
      simp only [Outcome.convergedFlag] at hconv
      simp only [Outcome.finalX, Option.some.injEq] at hfx
      subst hconv
      subst hfx
      have hiter : iterate (QP.problem d.x.length d.P d.q d.r d.G d.h d.A d.b)
          ls cfg cfg.maxIter (QP.initialPoint slack d.G d.h d.x)
          (List.replicate d.G.length 1) (List.replicate (d.A.length + 1) 0) []
          = .done xf2 lf nf true tr := hout
      have hlen : xf2.length = d.x.length + 1 := by
        have := iterate_done_length _ ls cfg cfg.maxIter
          (QP.initialPoint slack d.G d.h d.x)
          (List.replicate d.G.length 1) (List.replicate (d.A.length + 1) 0) []
          xf2 lf nf true tr hiter
        rw [this, QP.initialPoint]
        simp
      have hrp0 := iterate_done_true _ ls cfg cfg.maxIter
        (QP.initialPoint slack d.G d.h d.x)
        (List.replicate d.G.length 1) (List.replicate (d.A.length + 1) 0) []
        xf2 lf nf tr hiter
      have hrp2 : sqNorm (vsub (matVec (QP.augA d.A d.x.length) xf2)
          (QP.augb d.b)) ≤ cfg.epsFeas ^ 2 := hrp0
      have hmatlen : (matVec (QP.augA d.A d.x.length) xf2).length
          = d.A.length + 1 := by
        rw [length_matVec]
        simp [QP.augA]
      have hblen : (QP.augb d.b).length = d.A.length + 1 := by
        simp [QP.augb, hb]
      have h1 : (vsub (matVec (QP.augA d.A d.x.length) xf2)
          (QP.augb d.b)).getD d.A.length 0 =
          ((matVec (QP.augA d.A d.x.length) xf2).getD d.A.length 0) -
            ((QP.augb d.b).getD d.A.length 0) := by
        rw [vsub]
        have h0 := getD_zipWith_lt (fun a b => qsub a b)
          (matVec (QP.augA d.A d.x.length) xf2) (QP.augb d.b) d.A.length 0 0
          (by rw [hmatlen]; omega) (by rw [hblen]; omega)
        have hd := getD_indep (List.zipWith (fun a b => qsub a b)
          (matVec (QP.augA d.A d.x.length) xf2) (QP.augb d.b)) d.A.length
          0 (qsub 0 0)
          (by rw [List.length_zipWith, hmatlen, hblen]; omega)
        rw [hd]
        simpa [qsub_eq] using h0
      have h2 : (matVec (QP.augA d.A d.x.length) xf2).getD d.A.length 0 =
          dot ((QP.augA d.A d.x.length).getD d.A.length []) xf2 :=
        getD_matVec _ _ _ (by simp [QP.augA])
      have h3 : (QP.augA d.A d.x.length).getD d.A.length [] =
          List.replicate d.x.length 0 ++ [1] := by
        rw [QP.augA]
        have hl : (d.A.map (fun row => row ++ ([0] : Vec))).length
            = d.A.length := by simp
        rw [← hl, getD_append_length]
        simp
      have h4 : (QP.augb d.b).getD d.A.length 0 = 0 := by
        rw [QP.augb, ← hb, getD_append_length]
        simp
      have hcomp : (vsub (matVec (QP.augA d.A d.x.length) xf2)
          (QP.augb d.b)).getD d.A.length 0 = xf2.getD d.x.length 0 := by
        rw [h1, h2, h3, h4, dot_onehot_getD d.x.length 1 xf2 hlen]
        ring
      have hsq := sq_getD_le_sqNorm
        (vsub (matVec (QP.augA d.A d.x.length) xf2) (QP.augb d.b)) d.A.length
      rw [hcomp] at hsq
      have hsq2 : xf2.getD d.x.length 0 * xf2.getD d.x.length 0 ≤
          cfg.epsFeas ^ 2 := le_trans hsq hrp2
      rw [abs_le]
      constructor <;> nlinarith [heps]

theorem C4_slack_vanishing_witness :
    |([3, 1] : Vec).getD wD.x.length 0| ≤ wCfgLoose.epsFeas :=
  C4_slack_vanishing 1 wD gaussSolve wCfgLoose [3, 1]
    (by decide) (by decide) (by decide) (by decide)

/-- C5: exhausting the iteration budget at a non-converged, non-faulted
point terminates the engine loop without error, delivering the last iterate
with converged = false; the QP adapter then reports no error, overwrites
the caller's x with the delivered iterate, and exposes the non-convergence
only through isConverged. -/
theorem C5_maxiter_soft_termination
    (prob : Problem) (ls : LinSolver) (cfg : Config) (xc lc nc : Vec)
    (tr : List Iterate) (t : ℚ) (rd rc rp : Vec)
    (slack : ℚ) (mconv : Bool) (d : QPData) (ls2 : LinSolver) (cfg2 : Config)
    (xf lf nf : Vec) (tr2 : List Iterate)
    (h1 : checkPoint prob cfg xc lc nc = .go t rd rc rp)
    (hdims : QP.dimsOk d = true)
    (hout : QP.engineOutcome slack d ls2 cfg2 = .done xf lf nf false tr2) :
    iterate prob ls cfg 0 xc lc nc tr = .done xc lc nc false tr ∧
      (QP.solve ⟨slack, mconv⟩ d ls2 cfg2).err = none ∧
      (QP.solve ⟨slack, mconv⟩ d ls2 cfg2).x = xf.take d.x.length ∧
      QP.isConverged (QP.solve ⟨slack, mconv⟩ d ls2 cfg2).state = false := by
  have hsolve : QP.solve ⟨slack, mconv⟩ d ls2 cfg2 =
      ⟨⟨slack, false⟩, xf.take d.x.length, none, tr2⟩ := by
    rw [QP.solve]
    have hsl : (⟨slack, mconv⟩ : QPState).m_slack = slack := rfl
    rw [hsl, hout, hdims]
    simp
  refine ⟨?_, ?_, ?_, ?_⟩
  · simp only [iterate, h1]
  · rw [hsolve]
  · rw [hsolve]
  · rw [hsolve]; rfl

theorem C5_maxiter_soft_termination_witness :
    iterate wProb gaussSolve wCfg 0 [3] [1] [] [] = .done [3] [1] [] false [] ∧
      (QP.solve ⟨1, true⟩ wD gaussSolve wCfgZero).err = none ∧
      (QP.solve ⟨1, true⟩ wD gaussSolve wCfgZero).x = ([3, 1] : Vec).take wD.x.length ∧
      QP.isConverged (QP.solve ⟨1, true⟩ wD gaussSolve wCfgZero).state = false :=
  C5_maxiter_soft_termination wProb gaussSolve wCfg [3] [1] [] [] 5 [5] [mkRat 9 5] []
    1 true wD gaussSolve wCfgZero [3, 1] [1] [0] []
    (by decide) (by decide) (by decide)

/-- C6: a call with mutually inconsistent dimensions returns DimensionError
before any iteration: the trace is empty (no Newton step, iteration counter
zero) and the caller's x is unchanged. -/
theorem C6_dimension_rejection (st : QPState) (d : QPData) (ls : LinSolver)
    (cfg : Config) (hdims : QP.dimsOk d = false) :
    (QP.solve st d ls cfg).err = some .DimensionError ∧
      (QP.solve st d ls cfg).trace = [] ∧
      (QP.solve st d ls cfg).x = d.x := by
  have hs : QP.solve st d ls cfg =
      ⟨⟨st.m_slack, false⟩, d.x, some .DimensionError, []⟩ := by
    rw [QP.solve, hdims]
    simp
  rw [hs]
  exact ⟨rfl, rfl, rfl⟩

theorem C6_dimension_rejection_witness :
    (QP.solve ⟨1, false⟩ wDBad gaussSolve wCfg).err = some .DimensionError ∧
      (QP.solve ⟨1, false⟩ wDBad gaussSolve wCfg).trace = [] ∧
      (QP.solve ⟨1, false⟩ wDBad gaussSolve wCfg).x = wDBad.x :=
  C6_dimension_rejection ⟨1, false⟩ wDBad gaussSolve wCfg (by decide)

lemma matVec_append (M N : Mat) (v : Vec) :
    matVec (M ++ N) v = matVec M v ++ matVec N v := by
  simp [matVec]

lemma matVec_augP (P : Mat) (n : ℕ) (x : Vec) (s : ℚ) (hx : x.length = n)
    (hProws : ∀ row ∈ P, row.length = n) :
    matVec (QP.augP P n) (x ++ [s]) = matVec P x ++ [0] := by
  rw [QP.augP, matVec_append]
  congr 1
  · rw [matVec, List.map_map, matVec]
    refine List.map_congr_left ?_
    intro row hrow
    simp only [Function.comp]
    rw [dot_append row [0] x [s] (by rw [hProws row hrow, hx]), dot_single]
    ring
  · rw [matVec]
    simp only [List.map_cons, List.map_nil]
    rw [dot_onehot_getD n 0 (x ++ [s]) (by simp [hx])]
    simp

lemma aug_ineq_eq (x : Vec) (s : ℚ) : ∀ (G : Mat) (h : Vec),
    (∀ g ∈ G, g.length = x.length) →
    vsub (matVec (QP.augG G) (x ++ [s])) h =
      vsub (vsub (matVec G x) h) (List.replicate h.length s) := by
  intro G
  induction G with
  | nil =>
      intro h _
      simp [matVec, vsub, QP.augG]
  | cons g G ih =>
      intro h hrow
      cases h with
      | nil => simp [matVec, vsub, QP.augG]
      | cons h0 hs =>
          have hgl : g.length = x.length := hrow g (by simp)
          simp only [QP.augG, List.map_cons, matVec, vsub_def,
            List.zipWith_cons_cons, List.length_cons, List.replicate_succ]
          congr 1
          · rw [dot_append g [-1] x [s] hgl, dot_single]
            ring
          · have := ih hs (fun g2 hg2 => hrow g2 (by simp [hg2]))
            simpa [QP.augG, matVec, vsub_def] using this

/-- C7: the QP adapter hooks: the objective hook returns the quadratic
value (the slack coordinate does not contribute), the inequality hook
returns the linear value G x - h of its stored coefficients (at the
augmented point this is the original G x - h shifted by the slack), the
inequality Jacobian hook returns the constant stored matrix, and the
per-row inequality Hessian hook returns the zero matrix for every row. -/
theorem C7_qp_hooks (n : ℕ) (P : Mat) (q : Vec) (r : ℚ) (G : Mat) (h : Vec)
    (A : Mat) (b : Vec) (x : Vec) (s : ℚ)
    (hx : x.length = n) (hP : P.length = n)
    (hProws : ∀ row ∈ P, row.length = n)
    (hq : q.length = n) (hGrows : ∀ row ∈ G, row.length = n) :
    (QP.problem n P q r G h A b).objective (x ++ [s]) =
        some (dot x (matVec P x) / 2 + dot q x + r) ∧
      (∀ y, (QP.problem n P q r G h A b).inequality y =
        some (vsub (matVec (QP.augG G) y) h)) ∧
      (QP.problem n P q r G h A b).inequality (x ++ [s]) =
        some (vsub (vsub (matVec G x) h) (List.replicate h.length s)) ∧
      (∀ y, (QP.problem n P q r G h A b).jacobian y = some (QP.augG G)) ∧
      (∀ y i, (QP.problem n P q r G h A b).hessianRow y i =
        some (List.replicate (n + 1) (List.replicate (n + 1) 0))) := by
  refine ⟨?_, fun y => rfl, ?_, fun y => rfl, fun y i => rfl⟩
  · show QP.objective (QP.augP P n) (QP.augq q) r (x ++ [s]) = _
    rw [QP.objective]
    rw [matVec_augP P n x s hx hProws]
    rw [QP.augq]
    rw [dot_append x [s] (matVec P x) [0] (by rw [length_matVec, hx, hP]),
      dot_single]
    rw [dot_append q [0] x [s] (by rw [hq, hx]), dot_single]
    rw [qadd_eq, qadd_eq, qdiv_eq]
    ring_nf
  · show QP.inequality (QP.augG G) h (x ++ [s]) = _
    rw [QP.inequality]
    have hGrows2 : ∀ g ∈ G, g.length = x.length := by
      intro g hg
      rw [hGrows g hg, hx]
    rw [aug_ineq_eq x s G h hGrows2]

theorem C7_qp_hooks_witness :
    (QP.problem 1 [[2]] [0] 0 [[-1]] [-1] [] []).objective ([3] ++ [(1 : ℚ)]) =
        some (dot [3] (matVec [[2]] [3]) / 2 + dot [0] [3] + 0) ∧
      (∀ y, (QP.problem 1 [[2]] [0] 0 [[-1]] [-1] [] []).inequality y =
        some (vsub (matVec (QP.augG [[-1]]) y) [-1])) ∧
      (QP.problem 1 [[2]] [0] 0 [[-1]] [-1] [] []).inequality ([3] ++ [(1 : ℚ)]) =
        some (vsub (vsub (matVec [[-1]] [3]) [-1]) (List.replicate 1 1)) ∧
      (∀ y, (QP.problem 1 [[2]] [0] 0 [[-1]] [-1] [] []).jacobian y =
        some (QP.augG [[-1]])) ∧
      (∀ y i, (QP.problem 1 [[2]] [0] 0 [[-1]] [-1] [] []).hessianRow y i =
        some (List.replicate 2 (List.replicate 2 0))) :=
  C7_qp_hooks 1 [[2]] [0] 0 [[-1]] [-1] [] [] [3] 1
    (by decide) (by decide) (by decide) (by decide) (by decide)

/-- C8: after any call to QP solve, isConverged returns the termination
kind of that most recent solve as a boolean: true exactly when the engine
run passed the convergence test (and the dimensions were accepted), false
on budget exhaustion or any error; the result does not depend on the
previous converged flag. -/
theorem C8_isConverged_reports_last_solve (st : QPState) (d : QPData)
    (ls : LinSolver) (cfg : Config) :
    QP.isConverged (QP.solve st d ls cfg).state =
      (QP.dimsOk d && (QP.engineOutcome st.m_slack d ls cfg).convergedFlag) := by
  rw [QP.solve]
  cases hdims : QP.dimsOk d
  · simp [QP.isConverged]
  · rcases hout : QP.engineOutcome st.m_slack d ls cfg with
      ⟨xf, lf, nf, c, tr⟩ | ⟨e, tr⟩ <;>
      simp [QP.isConverged, Outcome.convergedFlag, hout]

/-- C9: solve is deterministic: two runs from states with the same
configuration (same slack margin) on the same input produce identical
engine outcomes (hence identical final x, lambda, nu), identical delivered
results, and identical isConverged answers. -/
theorem C9_deterministic_solve (s1 s2 : QPState) (d : QPData)
    (ls : LinSolver) (cfg : Config) (hsl : s1.m_slack = s2.m_slack) :
    QP.engineOutcome s1.m_slack d ls cfg
        = QP.engineOutcome s2.m_slack d ls cfg ∧
      (QP.solve s1 d ls cfg).x = (QP.solve s2 d ls cfg).x ∧
      (QP.solve s1 d ls cfg).err = (QP.solve s2 d ls cfg).err ∧
      QP.isConverged (QP.solve s1 d ls cfg).state =
        QP.isConverged (QP.solve s2 d ls cfg).state := by
  have hgen : ∀ st : QPState, QP.solve st d ls cfg =
      (if QP.dimsOk d = true then
        match QP.engineOutcome st.m_slack d ls cfg with
        | .done xf _ _ conv tr =>
            ⟨⟨st.m_slack, conv⟩, xf.take d.x.length, none, tr⟩
        | .fail e tr => ⟨⟨st.m_slack, false⟩, d.x, some e, tr⟩
      else ⟨⟨st.m_slack, false⟩, d.x, some .DimensionError, []⟩) :=
    fun _ => rfl
  refine ⟨by rw [hsl], ?_, ?_, ?_⟩ <;> rw [hgen s1, hgen s2, hsl]

theorem C9_deterministic_solve_witness :
    QP.engineOutcome (QPState.mk 1 true).m_slack wD gaussSolve wCfgLoose
        = QP.engineOutcome (QPState.mk 1 false).m_slack wD gaussSolve wCfgLoose ∧
      (QP.solve ⟨1, true⟩ wD gaussSolve wCfgLoose).x
        = (QP.solve ⟨1, false⟩ wD gaussSolve wCfgLoose).x ∧
      (QP.solve ⟨1, true⟩ wD gaussSolve wCfgLoose).err
        = (QP.solve ⟨1, false⟩ wD gaussSolve wCfgLoose).err ∧
      QP.isConverged (QP.solve ⟨1, true⟩ wD gaussSolve wCfgLoose).state =
        QP.isConverged (QP.solve ⟨1, false⟩ wD gaussSolve wCfgLoose).state :=
  C9_deterministic_solve ⟨1, true⟩ ⟨1, false⟩ wD gaussSolve wCfgLoose rfl

/-- C10: a QP solve call never modifies the caller's coefficient data:
after the call every coefficient buffer equals its value at the call, and
among the caller's buffers only x is written (with the delivered result). -/
theorem C10_frame_coefficients (st : QPState) (mem : QPData) (ls : LinSolver)
    (cfg : Config) :
    (QP.solveMem st mem ls cfg).2.1.P = mem.P ∧
      (QP.solveMem st mem ls cfg).2.1.q = mem.q ∧
      (QP.solveMem st mem ls cfg).2.1.r = mem.r ∧
      (QP.solveMem st mem ls cfg).2.1.G = mem.G ∧
      (QP.solveMem st mem ls cfg).2.1.h = mem.h ∧
      (QP.solveMem st mem ls cfg).2.1.A = mem.A ∧
      (QP.solveMem st mem ls cfg).2.1.b = mem.b ∧
      (QP.solveMem st mem ls cfg).2.1.x = (QP.solve st mem ls cfg).x :=
  ⟨rfl, rfl, rfl, rfl, rfl, rfl, rfl, rfl⟩
